import Mathlib

/-!
Shallow embedding of the commodities-research repository (notebooks and shell
scripts) and proofs about its operations.

Conventions of the embedding:
* A dataframe is a `List` of rows (a structure per dataframe schema); filtering
  is `List.filter`, column assignment is `List.map`, `groupby(...).sum()` is an
  explicit key-dedup-and-sum function.
* Timestamps (`DateTime` values) are minutes since an epoch, as an `Int`;
  the calendar date of a timestamp is its floor-division by 1440 (minutes per
  day), matching Python's `.date()` on a timestamp.
* Calendar dates (`Date` columns, split dates) are days since an epoch, as an
  `Int`.  The epoch day is a Monday, so Python's `date.weekday()`
  (Monday = 0 .. Sunday = 6) is the residue of the day number modulo 7.
* Numeric column values are rationals (`ℚ`).
* Fallible operations return `Option`.

The file is organised as definitions first (the embedding of the code), then
theorems (the claims, their witnesses and counterexamples).
-/

/-! # Part 1: definitions -/

/-- Minutes per day: timestamps are minutes, dates are days. -/
def minutesPerDay : Int := 1440

/-- Calendar date of a timestamp, as in Python `timestamp.date()`:
floor-division of the minute count by 1440 (for the positive divisor 1440,
Lean's Euclidean `/` on `Int` agrees with Python's floor division). -/
def dateOf (t : Int) : Int := t / minutesPerDay

/-- Time of day of a timestamp (minute of the day, 0..1439), as in Python
`timestamp.time()` at minute granularity (for the positive divisor 1440,
Lean's Euclidean `%` on `Int` agrees with Python's `%`). -/
def timeOf (t : Int) : Int := t % minutesPerDay

/-! ## Dataframe row types -/

/-- A row of a contract dataframe as loaded by `convert_csv_to_df` in the
split-by-cutoff-date notebook: the `DateTime` index and the `Volume` column. -/
structure ContractBar where
  dateTime : Int
  volume : ℚ
deriving DecidableEq

/-- A row of the master dataframe of the split-by-days-to-expiration notebook:
`DateTime` index, `Volume`, and the derived `Days To Contract Expiration`
column (an integer number of days, compared against a float threshold). -/
structure FuturesBar where
  dateTime : Int
  volume : ℚ
  dte : Int
deriving DecidableEq

/-- A row of the Commitment-of-Traders dataframe from `cot_csv_to_df`:
the `Date` column and the `Producer/Merchant/Processor/User Shorts - % of OI`
column. -/
structure CotRow where
  date : Int
  pmpuShortsPctOfOi : ℚ
deriving DecidableEq

/-! ## Threshold splits (claims C1, C6) -/

/-- Embedding of `split_dataframe_by_dte` from
`commodities_split_by_days_to_expiration.ipynb`: rows with
`Days To Contract Expiration <= dte_threshold` and rows with
`Days To Contract Expiration > dte_threshold`. -/
def split_dataframe_by_dte (aDf : List FuturesBar) (dteThreshold : ℚ) :
    List FuturesBar × List FuturesBar :=
  (aDf.filter (fun b => (b.dte : ℚ) ≤ dteThreshold),
   aDf.filter (fun b => dteThreshold < (b.dte : ℚ)))

/-- Embedding of `split_dataframe_by_date` from the split-by-cutoff-date
notebook.  The Python function's body filters the notebook-global
`master_ungrouped_df`, not its `df` parameter; the global is made an explicit
first argument here.  `split_date` is the already-parsed cutoff date. -/
def split_dataframe_by_date (masterUngroupedDf : List ContractBar)
    (df : List ContractBar) (splitDate : Int) :
    List ContractBar × List ContractBar :=
  (masterUngroupedDf.filter (fun b => dateOf b.dateTime < splitDate),
   masterUngroupedDf.filter (fun b => splitDate ≤ dateOf b.dateTime))

/-- Embedding of `filter_and_split_cot_shorts_around_median` from
`commodities_split_by_cot_short_interest.ipynb`: rows with the P/M/P/U shorts
percentage `>=` the median and rows with it `<` the median. -/
def filter_and_split_cot_shorts_around_median (cotDf : List CotRow)
    (medianPmpuShortsPercentage : ℚ) : List CotRow × List CotRow :=
  (cotDf.filter (fun r => medianPmpuShortsPercentage ≤ r.pmpuShortsPctOfOi),
   cotDf.filter (fun r => r.pmpuShortsPctOfOi < medianPmpuShortsPercentage))

/-! ## COT notebook: date arithmetic (claim C10)
(`commodities_split_by_cot_short_interest.ipynb`) -/

/-- Python `date.weekday()`: Monday = 0 .. Sunday = 6, for dates counted in
days from a Monday epoch. -/
def weekday (d : Int) : Int := d % 7

/-- Embedding of `date_of_preceding_tuesday` from
`commodities_split_by_cot_short_interest.ipynb`: match on the weekday and
subtract the corresponding number of days. -/
def date_of_preceding_tuesday (aDate : Int) : Int :=
  let dayOfWeek := weekday aDate
  let daysSincePrecedingTuesday : Int :=
    if dayOfWeek = 0 then 6
    else if dayOfWeek = 1 then 7
    else if dayOfWeek = 2 then 8
    else if dayOfWeek = 3 then 9
    else if dayOfWeek = 4 then 10
    else if dayOfWeek = 5 then 11
    else 12
  aDate - daysSincePrecedingTuesday

/-- Embedding of `calc_begin_cot_apply_date_range`: report date plus 6 days. -/
def calc_begin_cot_apply_date_range (reportObservationDate : Int) : Int :=
  reportObservationDate + 6

/-- Embedding of `calc_end_cot_apply_date_range`: report date plus 12 days. -/
def calc_end_cot_apply_date_range (reportObservationDate : Int) : Int :=
  reportObservationDate + 12

/-! ## Settlement correlation notebook (claim C2)
(`settlement_and_open_correlation_analysis.ipynb`) -/

/-- A row of a settlement-analytics dataframe from
`get_change_from_settlement_information`: the `Date`,
`Price Difference b/w Open And Prior Day Settlement` and `Symbol` columns. -/
structure SettlementRow where
  date : Int
  priceDiffBwOpenAndPriorDaySettlement : ℚ
  symbol : String
deriving DecidableEq

/-- A row of an intraday-open dataframe from `intraday_open_csv_to_df`,
restricted to the columns the settlement correlation reads (`Symbol`,
`DateTime`, `Open Minutes Offset`, `Price Change From Intraday Open`; the
other loaded columns are not consulted by the functions under claim). -/
structure IntradayOpenBar where
  symbol : String
  dateTime : Int
  openMinutesOffset : Int
  priceChangeFromIntradayOpen : ℚ
deriving DecidableEq

/-- Embedding of `get_settlement_price_change_for_date`: filter the
settlement dataframe to the rows of the queried date; if that group is empty
return `None` (`none`), otherwise the first row's price difference. -/
def get_settlement_price_change_for_date (aDate : Int)
    (aSettlementDf : List SettlementRow) : Option ℚ :=
  match aSettlementDf.filter (fun r => r.date = aDate) with
  | [] => none
  | r :: _ => some r.priceDiffBwOpenAndPriorDaySettlement

/-- Embedding of `get_intraday_price_change_at_minute_sixty`: filter to the
queried date (`None` if empty), then to `Open Minutes Offset == 59` (`None`
if empty), otherwise the first row's price change from the intraday open. -/
def get_intraday_price_change_at_minute_sixty (aDate : Int)
    (intradayDf : List IntradayOpenBar) : Option ℚ :=
  match intradayDf.filter (fun r => dateOf r.dateTime = aDate) with
  | [] => none
  | r :: rest =>
    match (r :: rest).filter (fun b => b.openMinutesOffset = 59) with
    | [] => none
    | t :: _ => some t.priceChangeFromIntradayOpen

/-- Embedding of one step of the `corellation_matrix` loop body: look up both
prices for a date; if either lookup came back `None` the loop `continue`s
(no entry); otherwise it appends the record of both price changes. -/
def corellation_entry_for_date (aSymbol : String) (aDate : Int)
    (settlementDfForSymbol : List SettlementRow)
    (intradayDfForSymbol : List IntradayOpenBar) :
    Option (String × Int × ℚ × ℚ) :=
  match get_settlement_price_change_for_date aDate settlementDfForSymbol,
        get_intraday_price_change_at_minute_sixty aDate intradayDfForSymbol with
  | some s, some i => some (aSymbol, aDate, s, i)
  | _, _ => none

/-! ## Min-max normalization (claim C3) -/

/-- Minimum of a list of rationals (sklearn's `data_min_` of the single
feature column); 0 on the empty list, a case the scaler rejects and claim C3
excludes. -/
def listMin : List ℚ → ℚ
  | [] => 0
  | x :: xs => xs.foldl min x

/-- Maximum of a list of rationals (sklearn's `data_max_`); 0 on the empty
list. -/
def listMax : List ℚ → ℚ
  | [] => 0
  | x :: xs => xs.foldl max x

/-- Embedding of `normalize_nd_array` (identical in
`commodities_split_by_days_to_expiration.ipynb` and the split-by-cutoff-date
notebook): fit a `MinMaxScaler(feature_range=(0, 1))` on the `(n, 1)`-shaped
column and transform it, i.e. map each value `x` to
`(x - data_min) / (data_max - data_min)`; the final `map(lambda x: x[0], ...)`
flattening is the identity in this list model. -/
def normalize_nd_array (toNormalize : List ℚ) : List ℚ :=
  let dataMin := listMin toNormalize
  let dataMax := listMax toNormalize
  toNormalize.map (fun x => (x - dataMin) / (dataMax - dataMin))

/-! ## Days-to-expiration column (claim C4)
(`commodities_split_by_days_to_expiration.ipynb`) -/

/-- Embedding of `get_unique_trading_days`: the distinct calendar dates of
the dataframe's `DateTime` index.  (`List.dedup` keeps a different occurrence
than pandas `.unique()`, but every use either sorts or counts the result, so
only the underlying set matters.) -/
def get_unique_trading_days (df : List ContractBar) : List Int :=
  (df.map (fun b => dateOf b.dateTime)).dedup

/-- Embedding of `calculate_dte_for_row`: Python `timedelta.days` of
`last_unique_trading_minute_in_contract - row.name`, i.e. the floor of the
minute difference divided by 1440 (Euclidean `/` by the positive 1440). -/
def calculate_dte_for_row (row : ContractBar)
    (lastUniqueTradingMinuteInContract : Int) : Int :=
  (lastUniqueTradingMinuteInContract - row.dateTime) / minutesPerDay

/-- Embedding of `add_dte_column_to_df`: sort the unique trading days, take
the last one, take the timestamp of the last row recorded on that day, and
give every row a `Days To Contract Expiration` column via
`calculate_dte_for_row`.  Python raises an `IndexError` on
`unique_trading_days[-1]` for an empty dataframe; the embedding returns
`none` there (the inner `none` branch is unreachable). -/
def add_dte_column_to_df (aContractDf : List ContractBar) :
    Option (List FuturesBar) :=
  match (List.insertionSort (· ≤ ·)
      (get_unique_trading_days aContractDf)).getLast? with
  | none => none
  | some lastUniqueTradingDayInContract =>
    match (aContractDf.filter
        (fun b => dateOf b.dateTime = lastUniqueTradingDayInContract)).getLast? with
    | none => none
    | some lastBar =>
      some (aContractDf.map (fun b =>
        FuturesBar.mk b.dateTime b.volume (calculate_dte_for_row b lastBar.dateTime)))

/-! ## Resampling, grouping by minute, and per-minute averages
(claims C5, C7) -/

/-- Minimum of a list of timestamps (`Int` minutes); 0 on the empty list. -/
def listMinInt : List Int → Int
  | [] => 0
  | x :: xs => xs.foldl min x

/-- Maximum of a list of timestamps; 0 on the empty list. -/
def listMaxInt : List Int → Int
  | [] => 0
  | x :: xs => xs.foldl max x

/-- All minutes from `lo` to `hi` inclusive (empty when `hi < lo`). -/
def minuteRange (lo hi : Int) : List Int :=
  (List.range (hi - lo + 1).toNat).map (fun i => lo + (i : Int))

/-- The minute bins pandas `resample('1T')` produces: every minute between
the first and last timestamp of the index, inclusive; no bins on an empty
dataframe. -/
def resample_bins (dts : List Int) : List Int :=
  match dts with
  | [] => []
  | _ :: _ => minuteRange (listMinInt dts) (listMaxInt dts)

/-- Embedding of `groupby(lambda x: x.time()).sum()` on a single numeric
column keyed by timestamp: for each distinct time of day, the sum of the
values whose timestamp has that time of day.  (pandas sorts group keys;
`dedup` keeps a different key order, which no claim observes.) -/
def groupByTimeSum (l : List (Int × ℚ)) : List (Int × ℚ) :=
  ((l.map (fun p => timeOf p.1)).dedup).map
    (fun k => (k, ((l.filter (fun p => timeOf p.1 = k)).map (fun p => p.2)).sum))

/-- The per-bin column sums of `df.resample('1T').sum()` on the
days-to-expiration master dataframe, whose numeric columns are `Volume` and
`Days To Contract Expiration`: each bin carries the sum of both columns. -/
def resample_sum_columns (df : List FuturesBar) : List (Int × ℚ × ℚ) :=
  (resample_bins (df.map (fun b => b.dateTime))).map
    (fun m => (m,
      ((df.filter (fun b => b.dateTime = m)).map (fun b => b.volume)).sum,
      ((df.filter (fun b => b.dateTime = m)).map (fun b => (b.dte : ℚ))).sum))

/-- Column selection `[["Volume"]]` after a whole-dataframe resample. -/
def select_volume_column (l : List (Int × ℚ × ℚ)) : List (Int × ℚ) :=
  l.map (fun p => (p.1, p.2.1))

/-- Column selection `df[['Volume']]` before resampling. -/
def project_volume (df : List FuturesBar) : List (Int × ℚ) :=
  df.map (fun b => (b.dateTime, b.volume))

/-- Resample of a single-column (`Volume`) frame: per-bin sums. -/
def resample_sum_volume (l : List (Int × ℚ)) : List (Int × ℚ) :=
  (resample_bins (l.map (fun p => p.1))).map
    (fun m => (m, ((l.filter (fun p => p.1 = m)).map (fun p => p.2)).sum))

/-- Embedding of `resample_volume_by_minute` as defined in the
split-by-cutoff-date notebook: `df.resample('1T').sum()[["Volume"]]` (resample
the whole dataframe, then select `Volume`) followed by
`groupby(lambda x: x.time()).sum()`. -/
def resample_volume_by_minute_cutoff (df : List FuturesBar) : List (Int × ℚ) :=
  groupByTimeSum (select_volume_column (resample_sum_columns df))

/-- Embedding of `resample_volume_by_minute` as defined in
`commodities_split_by_days_to_expiration.ipynb`:
`df[['Volume']].resample('1T').sum()[["Volume"]]` (select `Volume` first,
then resample) followed by `groupby(lambda x: x.time()).sum()`. -/
def resample_volume_by_minute_dte (df : List FuturesBar) : List (Int × ℚ) :=
  groupByTimeSum (resample_sum_volume (project_volume df))

/-- Value-level embedding of the average-volume column assignment in
`get_master_avg_daily_nominal_df`: each by-minute row `(minute, total)` gets
an `Average Volume` value `total / num_unique_trading_days`. -/
def add_average_volume_column (byMinuteDf : List (Int × ℚ))
    (numUniqueTradingDays : ℕ) : List (Int × ℚ × ℚ) :=
  byMinuteDf.map (fun p => (p.1, p.2, p.2 / (numUniqueTradingDays : ℚ)))

/-- Embedding of `calculate_normalized_vol_by_minute`: the summed intraday
normalized volume divided by the number of unique trading days. -/
def calculate_normalized_vol_by_minute (intradaySummed : ℚ)
    (numUniqueTradingDays : ℕ) : ℚ :=
  intradaySummed / (numUniqueTradingDays : ℚ)

/-- Embedding of `group_by_minute_sum_normalized_volumes`: group the
intraday-normalized values by time of day summing them
(`Volume Normalized Summed`), then add the `Daily Avg Volume Normalized`
column via `calculate_normalized_vol_by_minute`. -/
def group_by_minute_sum_normalized_volumes
    (dfIntradayNormalized : List (Int × ℚ)) (numUniqueTradingDays : ℕ) :
    List (Int × ℚ × ℚ) :=
  (groupByTimeSum dfIntradayNormalized).map
    (fun p => (p.1, p.2, calculate_normalized_vol_by_minute p.2 numUniqueTradingDays))

/-! ## Shell scripts (claims C8, C9)
(`src/data/scripts/add_header.sh` and the rename-extensions script) -/

/-- The header line `add_header.sh` inserts. -/
def csvHeaderLine : String := "DateTime,Open,High,Low,Close,Volume"

/-- A file: its path as components relative to the working directory
(file names as character lists), and its content as lines. -/
structure FSFile where
  path : List (List Char)
  content : List String
deriving DecidableEq

/-- Does `name` end with the given suffix? -/
def endsWithSuffix (suffixChars name : List Char) : Bool :=
  decide (name.reverse.take suffixChars.length = suffixChars.reverse)

/-- The characters of `.txt`. -/
def txtSuffix : List Char := ['.', 't', 'x', 't']

/-- The characters of `.csv`. -/
def csvSuffix : List Char := ['.', 'c', 's', 'v']

/-- The zsh expansion `${file%.txt}.csv`: strip a trailing `.txt` if present
and append `.csv`. -/
def rename_target (name : List Char) : List Char :=
  (if endsWithSuffix txtSuffix name then (name.reverse.drop 4).reverse else name)
    ++ csvSuffix

/-- Does the zsh glob `*.txt` in the working directory match this path?  Only
direct children are candidates, and the glob skips dotfiles. -/
def isTopLevelTxt (path : List (List Char)) : Bool :=
  match path with
  | [name] => endsWithSuffix txtSuffix name && !(decide (name.head? = some '.'))
  | _ => false

/-- The path after `mv "$file" "${file%.txt}.csv"`. -/
def rename_target_path (path : List (List Char)) : List (List Char) :=
  match path with
  | [name] => [rename_target name]
  | p => p

/-- Does `find . -name "*.csv"` report this path?  `find` recurses into
subdirectories and matches the basename (dotfiles included). -/
def isCsvFind (path : List (List Char)) : Bool :=
  match path.getLast? with
  | some name => endsWithSuffix csvSuffix name
  | none => false

/-- The effect of `gsed -i '1s/^/DateTime,Open,High,Low,Close,Volume\n/'` on a
file's lines: the substitution targets line 1, so a file with no lines is
left empty; otherwise the header becomes a new first line. -/
def gsed_prepend_header (content : List String) : List String :=
  match content with
  | [] => []
  | l :: ls => csvHeaderLine :: l :: ls

/-- One successful `mv src dst`: any existing file at `dst` is silently
replaced (removed), and the file at `src` is renamed to `dst`.  (`mv` with a
missing source fails and changes nothing; the rename loop only invokes it on
glob-matched sources, which are present.) -/
def mv_file (src dst : List (List Char)) (fs : List FSFile) : List FSFile :=
  (fs.filter (fun f => f.path ≠ dst)).map
    (fun f => if f.path = src then FSFile.mk dst f.content else f)

/-- The expansion of the glob `*.txt` in the working directory: the top-level
non-dot `.txt` files.  (zsh sorts the expansion; the order is irrelevant to
the loop's net effect because every source ends `.txt` and every target ends
`.csv`, so distinct iterations never collide.) -/
def glob_txt_matches (fs : List FSFile) : List FSFile :=
  fs.filter (fun f => isTopLevelTxt f.path)

/-- Embedding of the rename script (`for file in *.txt; do mv "$file"
"${file%.txt}.csv"; done`): the glob is expanded once, then each matched file
is `mv`ed to its `.csv` target in turn — overwriting, as `mv` does, any file
already at the target path. -/
def rename_txt_to_csv_script (fs : List FSFile) : List FSFile :=
  (glob_txt_matches fs).foldl
    (fun acc f => mv_file f.path (rename_target_path f.path) acc) fs

/-- Embedding of `add_header.sh` (`for file in $(find . -name "*.csv"); do
gsed -i '1s/^/DateTime,Open,High,Low,Close,Volume\n/' $file; done`): every
`find`-reported file's content gets the header prepended, every other file is
untouched. -/
def add_header_sh (fs : List FSFile) : List FSFile :=
  fs.map (fun f =>
    if isCsvFind f.path then FSFile.mk f.path (gsed_prepend_header f.content)
    else f)

/-! # Part 2: theorems -/

/-- Filtering a list by a predicate and by its negation gives lengths summing
to the original length. -/
lemma length_filter_add_length_filter_neg {α : Type} (l : List α)
    (p q : α → Bool) (hpq : ∀ a, q a = !p a) :
    (l.filter p).length + (l.filter q).length = l.length := by
  induction l with
  | nil => simp
  | cons a t ih =>
    by_cases h : p a
    · have hq : q a = false := by rw [hpq a, h]; rfl
      simp [List.filter_cons, h, hq]; omega
    · have hq : q a = true := by
        rw [hpq a, Bool.eq_false_iff.mpr h]; rfl
      simp [List.filter_cons, h, hq]; omega

/-- Filtering a list by a predicate and by its negation gives multiplicities
summing to the original multiplicity: each occurrence of a row lands in
exactly one of the two filtered lists. -/
lemma count_filter_add_count_filter_neg {α : Type} [DecidableEq α] (l : List α)
    (p q : α → Bool) (hpq : ∀ a, q a = !p a) (r : α) :
    (l.filter p).count r + (l.filter q).count r = l.count r := by
  induction l with
  | nil => simp
  | cons a t ih =>
    by_cases h : p a
    · have hq : q a = false := by rw [hpq a, h]; rfl
      simp [List.filter_cons, h, hq, List.count_cons]
      omega
    · have hq : q a = true := by
        rw [hpq a, Bool.eq_false_iff.mpr h]; rfl
      simp [List.filter_cons, h, hq, List.count_cons]
      omega

/-- In a linear order, deciding `t < x` is the negation of deciding `x ≤ t`. -/
lemma decide_lt_eq_not_decide_le {α : Type} [LinearOrder α] (x t : α) :
    (decide (t < x)) = !(decide (x ≤ t)) := by
  by_cases h : x ≤ t
  · simp [h, not_lt.mpr h]
  · simp [h, lt_of_not_le h]

/-- In a linear order, deciding `t ≤ x` is the negation of deciding `x < t`. -/
lemma decide_le_eq_not_decide_lt {α : Type} [LinearOrder α] (x t : α) :
    (decide (t ≤ x)) = !(decide (x < t)) := by
  by_cases h : x < t
  · simp [h, not_le.mpr h]
  · simp [h, le_of_not_lt h]

/-- Claim C2, as stated, is false: on a date whose settlement group is empty,
`get_settlement_price_change_for_date` does not fail — it returns the
recovery value `None` (`none` here); likewise
`get_intraday_price_change_at_minute_sixty` on a date with no minute-59 bar;
and the correlation loop consumes those `None`s by skipping the date. -/
theorem empty_group_returns_none_counterexample :
    get_settlement_price_change_for_date 3 [] = none ∧
    get_intraday_price_change_at_minute_sixty 3
      [IntradayOpenBar.mk "LE" 4321 3 1] = none ∧
    corellation_entry_for_date "LE" 3 [] [IntradayOpenBar.mk "LE" 4321 3 1] =
      none :=
  ⟨rfl, rfl, rfl⟩

/-- Claim C2, amended: the settlement and intraday lookups handle the
empty-group case instead of failing — whenever the queried group is empty
they return `None`, and the correlation loop body produces no entry (skips
the date) whenever either lookup returned `None`.  (Missing files and
malformed dates still surface as uncaught errors, and no operation retries
or catches an error from a suboperation.) -/
theorem empty_groups_recovered_not_raised :
    ∀ (aDate : Int) (sdf : List SettlementRow) (idf : List IntradayOpenBar),
      (sdf.filter (fun r => r.date = aDate) = [] →
        get_settlement_price_change_for_date aDate sdf = none) ∧
      ((idf.filter (fun r => dateOf r.dateTime = aDate)).filter
          (fun b => b.openMinutesOffset = 59) = [] →
        get_intraday_price_change_at_minute_sixty aDate idf = none) ∧
      (∀ sym : String,
        get_settlement_price_change_for_date aDate sdf = none ∨
          get_intraday_price_change_at_minute_sixty aDate idf = none →
        corellation_entry_for_date sym aDate sdf idf = none) := by
  intro aDate sdf idf
  refine ⟨fun h => ?_, fun h => ?_, fun sym h => ?_⟩
  · simp [get_settlement_price_change_for_date, h]
  · rcases hc : idf.filter (fun r => dateOf r.dateTime = aDate) with _ | ⟨a, t⟩
    · simp [get_intraday_price_change_at_minute_sixty, hc]
    · rw [hc] at h
      simp [get_intraday_price_change_at_minute_sixty, hc, h]
  · rcases h with h | h
    · simp [corellation_entry_for_date, h]
    · rcases hx : get_settlement_price_change_for_date aDate sdf with _ | v <;>
        simp [corellation_entry_for_date, h, hx]

/-- Witness for the amended C2 at concrete inputs: date 3, a settlement
dataframe whose only row is for date 1 (empty group), and an intraday
dataframe whose only bar for date 3 has offset 3 (no minute-59 bar). -/
theorem empty_groups_recovered_not_raised_witness :
    get_settlement_price_change_for_date 3 [SettlementRow.mk 1 2 "GF"] = none ∧
    get_intraday_price_change_at_minute_sixty 3
      [IntradayOpenBar.mk "GF" 4321 3 1] = none ∧
    corellation_entry_for_date "GF" 3 [SettlementRow.mk 1 2 "GF"]
      [IntradayOpenBar.mk "GF" 4321 3 1] = none :=
  ⟨(empty_groups_recovered_not_raised 3 [SettlementRow.mk 1 2 "GF"]
      [IntradayOpenBar.mk "GF" 4321 3 1]).1 (by decide),
   (empty_groups_recovered_not_raised 3 [SettlementRow.mk 1 2 "GF"]
      [IntradayOpenBar.mk "GF" 4321 3 1]).2.1 (by decide),
   (empty_groups_recovered_not_raised 3 [SettlementRow.mk 1 2 "GF"]
      [IntradayOpenBar.mk "GF" 4321 3 1]).2.2 "GF"
     (Or.inl ((empty_groups_recovered_not_raised 3 [SettlementRow.mk 1 2 "GF"]
        [IntradayOpenBar.mk "GF" 4321 3 1]).1 (by decide)))⟩

/-- Claim C1, as stated: every threshold-split operation partitions the rows
of its `df` argument.  This is false for `split_dataframe_by_date`, which
filters the notebook-global `master_ungrouped_df` instead of its `df`
parameter: with an empty global and a one-row argument the two outputs are
both empty, so the output row counts sum to 0, not to the argument's row
count 1. -/
theorem threshold_splits_partition_counterexample :
    (split_dataframe_by_date [] [ContractBar.mk 0 1] 5).1.length +
      (split_dataframe_by_date [] [ContractBar.mk 0 1] 5).2.length ≠
    ([ContractBar.mk 0 1] : List ContractBar).length := by
  decide

/-- Claim C1, amended: each threshold-split operation partitions the rows of
the dataframe it filters — the `df` argument for `split_dataframe_by_dte` and
`filter_and_split_cot_shorts_around_median`, and the ambient
`master_ungrouped_df` (which equals the argument at the call site) for
`split_dataframe_by_date`.  Each occurrence of a row of the filtered
dataframe appears in exactly one of the two outputs (the multiplicities of
the two sides sum to its multiplicity in the input), and the two output row
counts sum to its row count. -/
theorem threshold_splits_partition :
    (∀ (aDf : List FuturesBar) (t : ℚ),
      ((split_dataframe_by_dte aDf t).1.length +
        (split_dataframe_by_dte aDf t).2.length = aDf.length) ∧
      ∀ r : FuturesBar,
        (split_dataframe_by_dte aDf t).1.count r +
          (split_dataframe_by_dte aDf t).2.count r = aDf.count r) ∧
    (∀ (master df : List ContractBar) (s : Int),
      ((split_dataframe_by_date master df s).1.length +
        (split_dataframe_by_date master df s).2.length = master.length) ∧
      ∀ r : ContractBar,
        (split_dataframe_by_date master df s).1.count r +
          (split_dataframe_by_date master df s).2.count r = master.count r) ∧
    (∀ (cotDf : List CotRow) (m : ℚ),
      ((filter_and_split_cot_shorts_around_median cotDf m).1.length +
        (filter_and_split_cot_shorts_around_median cotDf m).2.length =
        cotDf.length) ∧
      ∀ r : CotRow,
        (filter_and_split_cot_shorts_around_median cotDf m).1.count r +
          (filter_and_split_cot_shorts_around_median cotDf m).2.count r =
          cotDf.count r) := by
  refine ⟨fun aDf t => ⟨?_, fun r => ?_⟩,
    fun master df s => ⟨?_, fun r => ?_⟩,
    fun cotDf m => ⟨?_, fun r => ?_⟩⟩
  · exact length_filter_add_length_filter_neg aDf _ _
      (fun b => decide_lt_eq_not_decide_le (b.dte : ℚ) t)
  · exact count_filter_add_count_filter_neg aDf _ _
      (fun b => decide_lt_eq_not_decide_le (b.dte : ℚ) t) r
  · exact length_filter_add_length_filter_neg master _ _
      (fun b => decide_le_eq_not_decide_lt (dateOf b.dateTime) s)
  · exact count_filter_add_count_filter_neg master _ _
      (fun b => decide_le_eq_not_decide_lt (dateOf b.dateTime) s) r
  · exact length_filter_add_length_filter_neg cotDf _ _
      (fun b => decide_lt_eq_not_decide_le m b.pmpuShortsPctOfOi)
  · exact count_filter_add_count_filter_neg cotDf _ _
      (fun b => decide_lt_eq_not_decide_le m b.pmpuShortsPctOfOi) r

/-- Claim C6: the result of `split_dataframe_by_date` does not depend on its
`df` parameter — for any two dataframes passed as `df`, with the same split
date and the same ambient `master_ungrouped_df`, the output pairs are
identical, because the function filters the global dataframe. -/
theorem split_dataframe_by_date_ignores_df_argument :
    ∀ (master df₁ df₂ : List ContractBar) (s : Int),
      split_dataframe_by_date master df₁ s = split_dataframe_by_date master df₂ s :=
  fun _ _ _ _ => rfl

/-- Claim C10: `date_of_preceding_tuesday` always lands on a Tuesday, between
6 and 12 days before its argument; and on the apply range
`[R+6, R+12]` of a Tuesday report date `R` it is constantly `R`. -/
theorem cot_preceding_tuesday_right_inverse :
    (∀ d : Int,
      weekday (date_of_preceding_tuesday d) = 1 ∧
      6 ≤ d - date_of_preceding_tuesday d ∧
      d - date_of_preceding_tuesday d ≤ 12) ∧
    (∀ R d : Int, weekday R = 1 →
      calc_begin_cot_apply_date_range R ≤ d →
      d ≤ calc_end_cot_apply_date_range R →
      date_of_preceding_tuesday d = R) := by
  constructor
  · intro d
    simp only [date_of_preceding_tuesday, weekday]
    split <;> try split <;> try split <;> try split <;> try split <;> try split
    all_goals omega
  · intro R d hR hlo hhi
    simp only [calc_begin_cot_apply_date_range] at hlo
    simp only [calc_end_cot_apply_date_range] at hhi
    simp only [date_of_preceding_tuesday, weekday] at *
    split <;> omega

/-- Witness for C10 at concrete dates: day 20 (a Sunday) and the pair
`R = 1` (a Tuesday), `d = 8` inside the apply range `[7, 13]`. -/
theorem cot_preceding_tuesday_right_inverse_witness :
    (weekday (date_of_preceding_tuesday 20) = 1 ∧
      6 ≤ (20 : Int) - date_of_preceding_tuesday 20 ∧
      (20 : Int) - date_of_preceding_tuesday 20 ≤ 12) ∧
    date_of_preceding_tuesday 8 = 1 :=
  ⟨cot_preceding_tuesday_right_inverse.1 20,
   cot_preceding_tuesday_right_inverse.2 1 8 (by decide) (by decide) (by decide)⟩

/-- Folding `min` over a list never exceeds the initial accumulator. -/
lemma foldl_min_le_init (t : List ℚ) (a : ℚ) : t.foldl min a ≤ a := by
  induction t generalizing a with
  | nil => exact le_refl a
  | cons x xs ih => exact le_trans (ih (min a x)) (min_le_left a x)

/-- Folding `min` over a list is at most any member of the list. -/
lemma foldl_min_le_of_mem (t : List ℚ) (a x : ℚ) (hx : x ∈ t) :
    t.foldl min a ≤ x := by
  induction t generalizing a with
  | nil => cases hx
  | cons y ys ih =>
    rcases List.mem_cons.mp hx with h | h
    · subst h
      exact le_trans (foldl_min_le_init ys (min a x)) (min_le_right a x)
    · exact ih (min a y) h

/-- Folding `max` over a list is at least the initial accumulator. -/
lemma init_le_foldl_max (t : List ℚ) (a : ℚ) : a ≤ t.foldl max a := by
  induction t generalizing a with
  | nil => exact le_refl a
  | cons x xs ih => exact le_trans (le_max_left a x) (ih (max a x))

/-- Folding `max` over a list is at least any member of the list. -/
lemma mem_le_foldl_max (t : List ℚ) (a x : ℚ) (hx : x ∈ t) :
    x ≤ t.foldl max a := by
  induction t generalizing a with
  | nil => cases hx
  | cons y ys ih =>
    rcases List.mem_cons.mp hx with h | h
    · subst h
      exact le_trans (le_max_right a x) (init_le_foldl_max ys (max a x))
    · exact ih (max a y) h

/-- `listMin` bounds every member from below. -/
lemma listMin_le_of_mem {x : ℚ} {xs : List ℚ} (hx : x ∈ xs) : listMin xs ≤ x := by
  cases xs with
  | nil => cases hx
  | cons y ys =>
    rcases List.mem_cons.mp hx with h | h
    · subst h; exact foldl_min_le_init ys x
    · exact foldl_min_le_of_mem ys y x h

/-- `listMax` bounds every member from above. -/
lemma le_listMax_of_mem {x : ℚ} {xs : List ℚ} (hx : x ∈ xs) : x ≤ listMax xs := by
  cases xs with
  | nil => cases hx
  | cons y ys =>
    rcases List.mem_cons.mp hx with h | h
    · subst h; exact init_le_foldl_max ys x
    · exact mem_le_foldl_max ys y x h

/-- On a non-empty list whose min and max differ, the min is strictly below
the max. -/
lemma listMin_lt_listMax {xs : List ℚ} (hne : xs ≠ [])
    (hmm : listMin xs ≠ listMax xs) : listMin xs < listMax xs := by
  cases xs with
  | nil => exact absurd rfl hne
  | cons y ys =>
    have h1 : listMin (y :: ys) ≤ y := listMin_le_of_mem (List.mem_cons_self y ys)
    have h2 : y ≤ listMax (y :: ys) := le_listMax_of_mem (List.mem_cons_self y ys)
    exact lt_of_le_of_ne (le_trans h1 h2) hmm

/-- Claim C3: `normalize_nd_array` performs min-max normalization.  On a
non-empty list whose minimum differs from its maximum it returns one output
per input in the same order, the `i`-th output being
`(x_i - min) / (max - min)`; every output lies in `[0, 1]`, inputs equal to
the minimum map to 0 and inputs equal to the maximum map to 1. -/
theorem normalize_nd_array_is_minmax_normalization :
    ∀ (xs : List ℚ), xs ≠ [] → listMin xs ≠ listMax xs →
      (normalize_nd_array xs).length = xs.length ∧
      ∀ (i : ℕ) (hxi : i < xs.length) (hni : i < (normalize_nd_array xs).length),
        (normalize_nd_array xs)[i] =
          (xs[i] - listMin xs) / (listMax xs - listMin xs) ∧
        0 ≤ (normalize_nd_array xs)[i] ∧
        (normalize_nd_array xs)[i] ≤ 1 ∧
        (xs[i] = listMin xs → (normalize_nd_array xs)[i] = 0) ∧
        (xs[i] = listMax xs → (normalize_nd_array xs)[i] = 1) := by
  intro xs hne hmm
  have hlt : listMin xs < listMax xs := listMin_lt_listMax hne hmm
  have hpos : (0 : ℚ) < listMax xs - listMin xs := sub_pos.mpr hlt
  constructor
  · simp [normalize_nd_array]
  · intro i hxi hni
    have hmem : xs[i] ∈ xs := List.getElem_mem hxi
    have hval : (normalize_nd_array xs)[i] =
        (xs[i] - listMin xs) / (listMax xs - listMin xs) := by
      simp [normalize_nd_array]
    refine ⟨hval, ?_, ?_, ?_, ?_⟩
    · rw [hval]
      exact div_nonneg (sub_nonneg.mpr (listMin_le_of_mem hmem)) hpos.le
    · rw [hval]
      exact (div_le_one hpos).mpr
        (sub_le_sub_right (le_listMax_of_mem hmem) (listMin xs))
    · intro h0
      rw [hval, h0, sub_self, zero_div]
    · intro h1
      rw [hval, h1, div_self (ne_of_gt hpos)]

/-- Witness for C3 on the concrete list `[1, 3]` (min 1, max 3): the
hypotheses hold and the output has one entry per input. -/
theorem normalize_nd_array_is_minmax_normalization_witness :
    ([1, 3] : List ℚ) ≠ [] ∧ listMin [1, 3] ≠ listMax [1, 3] ∧
    (normalize_nd_array [1, 3]).length = ([1, 3] : List ℚ).length :=
  ⟨by decide, by decide,
   (normalize_nd_array_is_minmax_normalization [1, 3] (by decide) (by decide)).1⟩

/-- In a list pairwise non-decreasing under `f`, the last element carries the
maximal `f`-value. -/
lemma le_getLast_of_pairwise_le {α : Type} (f : α → Int) :
    ∀ (l : List α) (hl : l ≠ []),
      List.Pairwise (fun a b => f a ≤ f b) l →
      ∀ x ∈ l, f x ≤ f (l.getLast hl) := by
  intro l
  induction l with
  | nil => intro hl; exact absurd rfl hl
  | cons a t ih =>
    intro hl hs x hx
    cases t with
    | nil =>
      rcases List.mem_cons.mp hx with h | h
      · subst h; rw [List.getLast_singleton]
      · cases h
    | cons b t2 =>
      rw [List.getLast_cons (List.cons_ne_nil b t2)]
      rcases List.mem_cons.mp hx with h | h
      · subst h
        exact List.rel_of_pairwise_cons hs
          (List.getLast_mem (List.cons_ne_nil b t2))
      · exact ih (List.cons_ne_nil b t2) hs.of_cons x h

/-- If a list's last element satisfies the filter predicate, it is also the
last element of the filtered list. -/
lemma getLast?_filter_of_pred_getLast {α : Type} (l : List α) (hl : l ≠ [])
    (p : α → Bool) (hp : p (l.getLast hl) = true) :
    (l.filter p).getLast? = some (l.getLast hl) := by
  conv_lhs => rw [← List.dropLast_append_getLast hl]
  rw [List.filter_append]
  simp [List.filter_cons, hp]

/-- Claim C4, as stated, is false without a chronological-order assumption:
on a contract dataframe whose rows are not sorted by timestamp, the "last
recorded trading minute" picked by the code (the last stored row of the last
calendar day) can precede other rows' timestamps, making their
`Days To Contract Expiration` negative.  Bars at minutes 3480 (day 2,
10:00), 600 (day 0) and 3420 (day 2, 09:00) give DTE values `[-1, 1, 0]`. -/
theorem add_dte_column_to_df_counterexample :
    Option.map (fun l => l.map FuturesBar.dte)
        (add_dte_column_to_df
          [ContractBar.mk 3480 1, ContractBar.mk 600 1, ContractBar.mk 3420 1]) =
      some [-1, 1, 0] := by
  decide

/-- Claim C4, amended: on every non-empty contract dataframe whose rows are
in chronological order, `add_dte_column_to_df` keeps every row and adds a
`Days To Contract Expiration` column equal to the floor of the day
difference between the row's timestamp and the contract's last recorded
trading minute; hence the value is non-negative on every row and 0 on the
final bar. -/
theorem add_dte_column_to_df_correct :
    ∀ (df : List ContractBar) (hne : df ≠ [])
      (hsorted : List.Pairwise (fun a b => a.dateTime ≤ b.dateTime) df),
      ∃ out : List FuturesBar,
        add_dte_column_to_df df = some out ∧
        out.length = df.length ∧
        (∀ (i : ℕ) (hdi : i < df.length) (hoi : i < out.length),
          (out[i]).dateTime = (df[i]).dateTime ∧
          (out[i]).volume = (df[i]).volume ∧
          (out[i]).dte =
            ((df.getLast hne).dateTime - (df[i]).dateTime) / minutesPerDay ∧
          0 ≤ (out[i]).dte) ∧
        Option.map FuturesBar.dte out.getLast? = some 0 := by
  intro df hne hsorted
  have hmaxbar : ∀ b ∈ df, b.dateTime ≤ (df.getLast hne).dateTime :=
    le_getLast_of_pairwise_le (fun c => c.dateTime) df hne hsorted
  have h1440 : (0 : Int) < minutesPerDay := by norm_num [minutesPerDay]
  -- the sorted list of unique trading days and its last element
  have hune : get_unique_trading_days df ≠ [] := by
    intro h
    exact hne (List.map_eq_nil_iff.mp ((List.dedup_eq_nil _).mp h))
  have hdne : List.insertionSort (· ≤ ·) (get_unique_trading_days df) ≠ [] := by
    intro h
    apply hune
    have := List.length_insertionSort (· ≤ ·) (get_unique_trading_days df)
    rw [h] at this
    exact List.length_eq_zero.mp this.symm
  have hmem_days : ∀ d : Int,
      d ∈ List.insertionSort (· ≤ ·) (get_unique_trading_days df) ↔
        ∃ b ∈ df, dateOf b.dateTime = d := by
    intro d
    rw [(List.perm_insertionSort (· ≤ ·) (get_unique_trading_days df)).mem_iff]
    simp [get_unique_trading_days, List.mem_dedup, List.mem_map]
  have hlastDay :
      (List.insertionSort (· ≤ ·) (get_unique_trading_days df)).getLast hdne =
        dateOf (df.getLast hne).dateTime := by
    apply le_antisymm
    · obtain ⟨b, hb, heq⟩ := (hmem_days _).mp (List.getLast_mem hdne)
      rw [← heq]
      exact Int.ediv_le_ediv h1440 (hmaxbar b hb)
    · exact le_getLast_of_pairwise_le (fun d => d) _ hdne
        (List.sorted_insertionSort (· ≤ ·) (get_unique_trading_days df))
        _ ((hmem_days _).mpr ⟨df.getLast hne, List.getLast_mem hne, rfl⟩)
  have hfl : (df.filter (fun b => dateOf b.dateTime =
      (List.insertionSort (· ≤ ·) (get_unique_trading_days df)).getLast hdne)).getLast? =
      some (df.getLast hne) := by
    apply getLast?_filter_of_pred_getLast
    rw [hlastDay]
    simp
  refine ⟨df.map (fun b =>
    FuturesBar.mk b.dateTime b.volume
      (calculate_dte_for_row b (df.getLast hne).dateTime)), ?_, by simp, ?_, ?_⟩
  · rw [add_dte_column_to_df.eq_def, List.getLast?_eq_getLast _ hdne]
    simp only [hfl]
  · intro i hdi hoi
    refine ⟨by simp, by simp, by simp [calculate_dte_for_row], ?_⟩
    simp only [List.getElem_map, calculate_dte_for_row]
    exact Int.ediv_nonneg
      (sub_nonneg.mpr (hmaxbar df[i] (List.getElem_mem hdi))) h1440.le
  · rw [List.getLast?_map, List.getLast?_eq_getLast _ hne]
    simp [calculate_dte_for_row]

/-- Witness for the amended C4 on the concrete chronologically sorted
dataframe with bars at minutes 600 (day 0) and 3480 (day 2). -/
theorem add_dte_column_to_df_correct_witness :
    ∃ out : List FuturesBar,
      add_dte_column_to_df [ContractBar.mk 600 1, ContractBar.mk 3480 2] =
        some out ∧
      out.length = 2 ∧
      Option.map FuturesBar.dte out.getLast? = some 0 := by
  obtain ⟨out, h1, h2, _, h4⟩ := add_dte_column_to_df_correct
    [ContractBar.mk 600 1, ContractBar.mk 3480 2] (by decide)
    (by simp)
  exact ⟨out, h1, by simpa using h2, h4⟩

/-- Claim C7: the two copy-pasted `resample_volume_by_minute` helpers are
extensionally equal — selecting the `Volume` column before resampling (the
days-to-expiration notebook) or after it (the split-by-cutoff-date notebook)
yields the same per-minute summed volume dataframe on every input. -/
theorem resample_volume_by_minute_copies_agree :
    ∀ df : List FuturesBar,
      resample_volume_by_minute_cutoff df = resample_volume_by_minute_dte df := by
  intro df
  simp only [resample_volume_by_minute_cutoff, resample_volume_by_minute_dte,
    select_volume_column, resample_sum_columns, resample_sum_volume,
    project_volume, List.map_map, List.filter_map, Function.comp_def]

/-- Claim C5: the per-minute averaging is total divided by day count.  For
every by-minute row, the `Average Volume` value is the row's total volume
divided by the number of unique trading days; and every row produced by
`group_by_minute_sum_normalized_volumes` carries the sum of the segment's
intraday-normalized volumes at that time of day together with
`Daily Avg Volume Normalized` equal to that sum divided by the same count. -/
theorem per_minute_average_is_total_div_days :
    ∀ (byMinuteDf dfIntradayNormalized : List (Int × ℚ)) (numDays : ℕ),
      1 ≤ numDays →
      (∀ (m : Int) (v a : ℚ),
        (m, v, a) ∈ add_average_volume_column byMinuteDf numDays →
        a = v / (numDays : ℚ)) ∧
      (∀ (k : Int) (s a : ℚ),
        (k, s, a) ∈
          group_by_minute_sum_normalized_volumes dfIntradayNormalized numDays →
        s = ((dfIntradayNormalized.filter
            (fun p => timeOf p.1 = k)).map (fun p => p.2)).sum ∧
        a = s / (numDays : ℚ)) := by
  intro byMinuteDf dfIntradayNormalized numDays hdays
  constructor
  · intro m v a hmem
    simp only [add_average_volume_column, List.mem_map, Prod.ext_iff] at hmem
    obtain ⟨p, hp, h1, h2, h3⟩ := hmem
    rw [← h3, ← h2]
  · intro k s a hmem
    simp only [group_by_minute_sum_normalized_volumes, groupByTimeSum,
      calculate_normalized_vol_by_minute, List.mem_map, Prod.ext_iff] at hmem
    obtain ⟨p, ⟨key, hkey, hk1, hk2⟩, h1, h2, h3⟩ := hmem
    constructor
    · rw [← h2, ← hk2, hk1, h1]
    · rw [← h3, ← h2]

/-- Witness for C5 at concrete inputs: two trading days, a by-minute row
`(540, 4)` whose average is `4 / 2 = 2`, and intraday-normalized values at
minutes 540 and 1980 (both 9:00) whose summed value 3 averages to `3 / 2`. -/
theorem per_minute_average_is_total_div_days_witness :
    (((540 : Int), (4 : ℚ), (2 : ℚ)) ∈ add_average_volume_column [(540, 4)] 2 ∧
      (2 : ℚ) = 4 / ((2 : ℕ) : ℚ)) ∧
    (((540 : Int), (3 : ℚ), (3 / 2 : ℚ)) ∈
        group_by_minute_sum_normalized_volumes [(540, 1), (1980, 2)] 2 ∧
      (3 : ℚ) = (([((540 : Int), (1 : ℚ)), (1980, 2)].filter
          (fun p => timeOf p.1 = 540)).map (fun p => p.2)).sum ∧
      (3 / 2 : ℚ) = 3 / ((2 : ℕ) : ℚ)) :=
  ⟨⟨by norm_num [add_average_volume_column],
    (per_minute_average_is_total_div_days [(540, 4)] [(540, 1), (1980, 2)] 2
      (by decide)).1 540 4 2 (by norm_num [add_average_volume_column])⟩,
   ⟨by norm_num [group_by_minute_sum_normalized_volumes, groupByTimeSum,
      calculate_normalized_vol_by_minute, timeOf, minutesPerDay, List.dedup],
    (per_minute_average_is_total_div_days [(540, 4)] [(540, 1), (1980, 2)] 2
      (by decide)).2 540 3 (3 / 2)
      (by norm_num [group_by_minute_sum_normalized_volumes, groupByTimeSum,
        calculate_normalized_vol_by_minute, timeOf, minutesPerDay, List.dedup])⟩⟩

/-- Prepending the header to a non-empty file is consing the header line. -/
lemma gsed_prepend_header_of_ne_nil (lines : List String) (h : lines ≠ []) :
    gsed_prepend_header lines = csvHeaderLine :: lines := by
  cases lines with
  | nil => exact absurd rfl h
  | cons l ls => rfl

/-- Any list ending in the `.csv` characters passes the `.csv` suffix test. -/
lemma endsWith_csv_append (x : List Char) :
    endsWithSuffix csvSuffix (x ++ csvSuffix) = true := by
  simp only [endsWithSuffix, decide_eq_true_eq, List.reverse_append]
  have hlen : csvSuffix.length = csvSuffix.reverse.length :=
    (List.length_reverse csvSuffix).symm
  rw [hlen, List.take_left]

/-- Every rename target ends in `.csv`. -/
lemma rename_target_endsWith_csv (n : List Char) :
    endsWithSuffix csvSuffix (rename_target n) = true := by
  unfold rename_target
  exact endsWith_csv_append _

/-- A name ending in `.txt` is its stripped base followed by `.txt`. -/
lemma txtSuffix_reconstruct (n : List Char)
    (h : endsWithSuffix txtSuffix n = true) :
    (n.reverse.drop 4).reverse ++ txtSuffix = n := by
  have hl : txtSuffix.length = 4 := rfl
  simp only [endsWithSuffix, decide_eq_true_eq, hl] at h
  have hsplit : n.reverse.take 4 ++ n.reverse.drop 4 = n.reverse :=
    List.take_append_drop 4 n.reverse
  rw [h] at hsplit
  have hrev := congrArg List.reverse hsplit
  simp only [List.reverse_append, List.reverse_reverse] at hrev
  exact hrev

/-- A name cannot end in both `.txt` and `.csv`. -/
lemma endsWith_csv_eq_false_of_endsWith_txt (n : List Char)
    (h : endsWithSuffix txtSuffix n = true) :
    endsWithSuffix csvSuffix n = false := by
  have hlt : txtSuffix.length = 4 := rfl
  have hlc : csvSuffix.length = 4 := rfl
  simp only [endsWithSuffix, decide_eq_true_eq, hlt] at h
  simp only [endsWithSuffix, decide_eq_false_iff_not, hlc]
  intro hc
  rw [h] at hc
  exact absurd hc (by decide)

/-- A `.txt`-suffixed name is never a rename target (targets end `.csv`). -/
lemma ne_target_of_endsWith_txt {n2 n : List Char}
    (hx : endsWithSuffix txtSuffix n2 = true) : n2 ≠ rename_target n := by
  intro h3
  have h4 := rename_target_endsWith_csv n
  rw [← h3, endsWith_csv_eq_false_of_endsWith_txt n2 hx] at h4
  exact Bool.false_ne_true h4

/-- The rename map is injective on `.txt`-suffixed names. -/
lemma rename_target_inj {n1 n2 : List Char}
    (h1 : endsWithSuffix txtSuffix n1 = true)
    (h2 : endsWithSuffix txtSuffix n2 = true)
    (h : rename_target n1 = rename_target n2) : n1 = n2 := by
  simp only [rename_target, h1, h2, if_true] at h
  have hs : (n1.reverse.drop 4).reverse = (n2.reverse.drop 4).reverse :=
    List.append_cancel_right h
  calc n1 = (n1.reverse.drop 4).reverse ++ txtSuffix :=
        (txtSuffix_reconstruct n1 h1).symm
    _ = (n2.reverse.drop 4).reverse ++ txtSuffix := by rw [hs]
    _ = n2 := txtSuffix_reconstruct n2 h2

/-- A glob-matched path is a single `.txt`-suffixed name. -/
lemma exists_name_of_isTopLevelTxt {p : List (List Char)}
    (h : isTopLevelTxt p = true) :
    ∃ n, p = [n] ∧ endsWithSuffix txtSuffix n = true := by
  cases p with
  | nil => simp [isTopLevelTxt] at h
  | cons n rest =>
    cases rest with
    | nil =>
      refine ⟨n, rfl, ?_⟩
      simp only [isTopLevelTxt, Bool.and_eq_true] at h
      exact h.1
    | cons x xs => simp [isTopLevelTxt] at h

/-- `mv src dst` does not change the multiplicity of a file whose path is
neither the source nor the destination. -/
lemma count_mv_file_of_path_ne (src dst : List (List Char)) (g : FSFile)
    (hgd : g.path ≠ dst) (hgs : g.path ≠ src) :
    ∀ acc : List FSFile, (mv_file src dst acc).count g = acc.count g := by
  intro acc
  induction acc with
  | nil => rfl
  | cons e t ih =>
    by_cases hd : e.path = dst
    · have hstep : mv_file src dst (e :: t) = mv_file src dst t := by
        simp [mv_file, List.filter_cons, hd]
      have hne : e ≠ g := fun he => hgd (by rw [← he]; exact hd)
      rw [hstep, ih, List.count_cons]
      simp [hne, Ne.symm hne]
    · by_cases hs : e.path = src
      · have hd2 : ¬ src = dst := by rw [← hs]; exact hd
        have hstep : mv_file src dst (e :: t) =
            FSFile.mk dst e.content :: mv_file src dst t := by
          simp [mv_file, List.filter_cons, hd, hs, hd2]
        have h1 : FSFile.mk dst e.content ≠ g := fun he => hgd (by rw [← he])
        have h2 : e ≠ g := fun he => hgs (by rw [← he]; exact hs)
        rw [hstep, List.count_cons, ih, List.count_cons]
        simp [h1, Ne.symm h1, h2, Ne.symm h2]
      · have hstep : mv_file src dst (e :: t) = e :: mv_file src dst t := by
          simp [mv_file, List.filter_cons, hd, hs]
        rw [hstep, List.count_cons, ih, List.count_cons]

/-- `mv src dst` keeps a file whose path is neither the source nor the
destination. -/
lemma mem_mv_file_of_path_ne (src dst : List (List Char)) (g : FSFile)
    (hgd : g.path ≠ dst) (hgs : g.path ≠ src) (acc : List FSFile)
    (hg : g ∈ acc) : g ∈ mv_file src dst acc := by
  simp only [mv_file, List.mem_map]
  exact ⟨g, List.mem_filter.mpr ⟨hg, by simp [hgd]⟩, by simp [hgs]⟩

/-- `mv src dst` puts the source file's content at the destination. -/
lemma renamed_mem_mv_file (src dst : List (List Char)) (acc : List FSFile)
    (e : FSFile) (he : e ∈ acc) (hes : e.path = src) (hsd : src ≠ dst) :
    FSFile.mk dst e.content ∈ mv_file src dst acc := by
  simp only [mv_file, List.mem_map]
  exact ⟨e, List.mem_filter.mpr ⟨he, by simp [hes, hsd]⟩, by simp [hes]⟩

/-- A file survives the whole rename loop when no remaining iteration uses
its path as a source or as a target. -/
lemma mem_foldl_mv_of_ne (g : FSFile) :
    ∀ (ms acc : List FSFile), g ∈ acc →
      (∀ m ∈ ms, m.path ≠ g.path ∧ rename_target_path m.path ≠ g.path) →
      g ∈ ms.foldl (fun acc f => mv_file f.path (rename_target_path f.path) acc) acc := by
  intro ms
  induction ms with
  | nil => intro acc hg _; exact hg
  | cons m t ih =>
    intro acc hg hcond
    rw [List.foldl_cons]
    apply ih
    · exact mem_mv_file_of_path_ne _ _ g
        (fun h => (hcond m (List.mem_cons_self m t)).2 h.symm)
        (fun h => (hcond m (List.mem_cons_self m t)).1 h.symm)
        acc hg
    · intro x hx; exact hcond x (List.mem_cons_of_mem m hx)

/-- The rename loop never changes the multiplicity of a file whose path is
not a single component (every source and target is top-level). -/
lemma count_foldl_mv_topLevel (g : FSFile) (hg : ∀ n : List Char, g.path ≠ [n]) :
    ∀ (ms acc : List FSFile), (∀ m ∈ ms, isTopLevelTxt m.path = true) →
      (ms.foldl (fun acc f => mv_file f.path (rename_target_path f.path) acc)
        acc).count g = acc.count g := by
  intro ms
  induction ms with
  | nil => intro acc _; rfl
  | cons m t ih =>
    intro acc htxt
    rw [List.foldl_cons, ih _ (fun x hx => htxt x (List.mem_cons_of_mem m hx))]
    obtain ⟨n, hpn, hn⟩ :=
      exists_name_of_isTopLevelTxt (htxt m (List.mem_cons_self m t))
    apply count_mv_file_of_path_ne
    · rw [hpn]; exact hg (rename_target n)
    · rw [hpn]; exact hg n

/-- On a filesystem whose matched sources have pairwise distinct paths and
are all present, every matched file ends up renamed to its target. -/
lemma renamed_mem_foldl_mv :
    ∀ (ms acc : List FSFile),
      (∀ m ∈ ms, isTopLevelTxt m.path = true) →
      (ms.map FSFile.path).Nodup →
      (∀ m ∈ ms, m ∈ acc) →
      ∀ f ∈ ms, FSFile.mk (rename_target_path f.path) f.content ∈
        ms.foldl (fun acc f => mv_file f.path (rename_target_path f.path) acc) acc := by
  intro ms
  induction ms with
  | nil => intro acc _ _ _ f hf; cases hf
  | cons m t ih =>
    intro acc htxt hnd hsrc f hf
    obtain ⟨n, hpn, hn⟩ :=
      exists_name_of_isTopLevelTxt (htxt m (List.mem_cons_self m t))
    have hdst : rename_target_path m.path = [rename_target n] := by
      rw [hpn]; rfl
    rw [List.map_cons, List.nodup_cons] at hnd
    rw [List.foldl_cons]
    rcases List.mem_cons.mp hf with rfl | hft
    · apply mem_foldl_mv_of_ne
      · apply renamed_mem_mv_file _ _ _ f (hsrc f (List.mem_cons_self f t)) rfl
        rw [hdst, hpn]
        intro hcon
        have h3 : n = rename_target n := by simpa using hcon
        exact ne_target_of_endsWith_txt hn h3
      · intro x hx
        obtain ⟨n2, hpn2, hn2⟩ :=
          exists_name_of_isTopLevelTxt (htxt x (List.mem_cons_of_mem f hx))
        constructor
        · show x.path ≠ (FSFile.mk (rename_target_path f.path) f.content).path
          rw [hpn2, hdst]
          intro hcon
          have h3 : n2 = rename_target n := by simpa using hcon
          exact ne_target_of_endsWith_txt hn2 h3
        · show rename_target_path x.path ≠
            (FSFile.mk (rename_target_path f.path) f.content).path
          have hdst2 : rename_target_path x.path = [rename_target n2] := by
            rw [hpn2]; rfl
          rw [hdst2, hdst]
          intro hcon
          have h3 : rename_target n2 = rename_target n := by simpa using hcon
          have h5 : n2 = n := rename_target_inj hn2 hn h3
          apply hnd.1
          rw [hpn, ← h5, ← hpn2]
          exact List.mem_map_of_mem FSFile.path hx
    · apply ih (mv_file m.path (rename_target_path m.path) acc)
        (fun x hx => htxt x (List.mem_cons_of_mem m hx)) hnd.2 ?_ f hft
      intro x hx
      obtain ⟨n2, hpn2, hn2⟩ :=
        exists_name_of_isTopLevelTxt (htxt x (List.mem_cons_of_mem m hx))
      apply mem_mv_file_of_path_ne
      · rw [hpn2, hdst]
        intro hcon
        have h3 : n2 = rename_target n := by simpa using hcon
        exact ne_target_of_endsWith_txt hn2 h3
      · rw [hpn2, hpn]
        intro hcon
        have h3 : n2 = n := by simpa using hcon
        apply hnd.1
        rw [hpn, ← h3, ← hpn2]
        exact List.mem_map_of_mem FSFile.path hx
      · exact hsrc x (List.mem_cons_of_mem m hx)

/-- Every file present after the rename loop is an original file or a
renamed glob-matched original file: nothing else is ever renamed. -/
lemma foldl_mv_mem_characterize (fs0 : List FSFile) :
    ∀ (ms acc : List FSFile),
      (∀ m ∈ ms, isTopLevelTxt m.path = true) →
      (∀ g ∈ acc, g ∈ fs0 ∨ ∃ f ∈ fs0, isTopLevelTxt f.path = true ∧
        g = FSFile.mk (rename_target_path f.path) f.content) →
      ∀ g ∈ ms.foldl
          (fun acc f => mv_file f.path (rename_target_path f.path) acc) acc,
        g ∈ fs0 ∨ ∃ f ∈ fs0, isTopLevelTxt f.path = true ∧
          g = FSFile.mk (rename_target_path f.path) f.content := by
  intro ms
  induction ms with
  | nil => intro acc _ hinv g hg; exact hinv g hg
  | cons m t ih =>
    intro acc htxt hinv
    rw [List.foldl_cons]
    apply ih _ (fun x hx => htxt x (List.mem_cons_of_mem m hx))
    intro g hg
    simp only [mv_file, List.mem_map] at hg
    obtain ⟨e, hef, heq⟩ := hg
    have hea : e ∈ acc := List.mem_of_mem_filter hef
    by_cases hs : e.path = m.path
    · rw [if_pos hs] at heq
      rcases hinv e hea with he0 | ⟨f2, hf2, htxt2, he2⟩
      · right
        refine ⟨e, he0, ?_, ?_⟩
        · rw [hs]; exact htxt m (List.mem_cons_self m t)
        · rw [← heq, hs]
      · exfalso
        obtain ⟨n, hpn, hn⟩ :=
          exists_name_of_isTopLevelTxt (htxt m (List.mem_cons_self m t))
        obtain ⟨n2, hpn2, hn2⟩ := exists_name_of_isTopLevelTxt htxt2
        have hepath : e.path = [rename_target n2] := by rw [he2, hpn2]; rfl
        have h3 : n = rename_target n2 := by
          have h4 := hepath
          rw [hs, hpn] at h4
          simpa using h4
        exact ne_target_of_endsWith_txt hn h3
    · rw [if_neg hs] at heq
      rw [← heq]
      exact hinv e hea

/-- Claim C8, as stated, is false in two places: `add_header.sh` walks
`find .`, which recurses into subdirectories, so a `.csv` file inside a
subdirectory is modified rather than left unchanged; and the zsh glob
`*.txt` skips dotfiles, so a hidden `.hidden.txt` in the current directory —
a file of the current directory ending in `.txt` — is not renamed. -/
theorem shell_scripts_counterexample :
    add_header_sh [FSFile.mk ["sub".toList, "x.csv".toList] ["1,2,3,4,5,6"]] ≠
      [FSFile.mk ["sub".toList, "x.csv".toList] ["1,2,3,4,5,6"]] ∧
    rename_txt_to_csv_script [FSFile.mk [".hidden.txt".toList] ["p"]] =
      [FSFile.mk [".hidden.txt".toList] ["p"]] :=
  ⟨by decide, by decide⟩

/-- Claim C8, amended: the rename script renames exactly the non-dot files
of the current directory ending in `.txt` — on a filesystem with distinct
paths each such file reappears at its `.csv` target with unchanged content,
and every file the script ever produces is an original file or such a
rename, so nothing else is renamed — and every file outside the current
directory (on a path of two or more components) keeps its multiplicity
unchanged; `add_header.sh` modifies the content of exactly the
`.csv`-suffixed files in the current directory and, recursively, its
subdirectories, preserving their paths, and leaves every file not ending in
`.csv` unchanged.  (An `mv` may overwrite a same-named pre-existing `.csv`
file, but that file is inside, not outside, the current directory.) -/
theorem shell_scripts_frame :
    ∀ fs : List FSFile,
      (∀ g : FSFile, 2 ≤ g.path.length →
        (rename_txt_to_csv_script fs).count g = fs.count g) ∧
      ((fs.map FSFile.path).Nodup →
        ∀ f ∈ fs, isTopLevelTxt f.path = true →
          FSFile.mk (rename_target_path f.path) f.content ∈
            rename_txt_to_csv_script fs) ∧
      (∀ g ∈ rename_txt_to_csv_script fs,
        g ∈ fs ∨ ∃ f ∈ fs, isTopLevelTxt f.path = true ∧
          g = FSFile.mk (rename_target_path f.path) f.content) ∧
      ((add_header_sh fs).length = fs.length) ∧
      (∀ (i : ℕ) (hfi : i < fs.length) (hai : i < (add_header_sh fs).length),
        (isCsvFind (fs[i]).path = false → (add_header_sh fs)[i] = fs[i]) ∧
        (isCsvFind (fs[i]).path = true →
          ((add_header_sh fs)[i]).path = (fs[i]).path ∧
          ((add_header_sh fs)[i]).content =
            gsed_prepend_header (fs[i]).content)) := by
  intro fs
  refine ⟨?_, ?_, ?_, by simp [add_header_sh], ?_⟩
  · intro g hg
    have h1 : ∀ n : List Char, g.path ≠ [n] := by
      intro n hcon
      rw [hcon] at hg
      simp at hg
    exact count_foldl_mv_topLevel g h1 (glob_txt_matches fs) fs
      (fun m hm => by simpa using List.of_mem_filter hm)
  · intro hnd f hf htxt
    exact renamed_mem_foldl_mv (glob_txt_matches fs) fs
      (fun m hm => by simpa using List.of_mem_filter hm)
      (hnd.sublist (List.Sublist.map FSFile.path (List.filter_sublist fs)))
      (fun m hm => List.mem_of_mem_filter hm)
      f (List.mem_filter.mpr ⟨hf, htxt⟩)
  · intro g hg
    exact foldl_mv_mem_characterize fs (glob_txt_matches fs) fs
      (fun m hm => by simpa using List.of_mem_filter hm)
      (fun x hx => Or.inl hx) g hg
  · intro i hfi hai
    refine ⟨fun h => ?_, fun h => ?_⟩ <;>
      simp [add_header_sh, List.getElem_map, h]

/-- Witness for the amended C8 on the concrete filesystem with `a.txt` at
top level and `sub/x.csv` in a subdirectory: the subdirectory file keeps its
multiplicity under the rename script, `a.txt` reappears at its `.csv`
target, the subdirectory file is accounted for by the characterization, and
`add_header.sh` prepends the header to the subdirectory `.csv` file. -/
theorem shell_scripts_frame_witness :
    (rename_txt_to_csv_script
        [FSFile.mk ["a.txt".toList] ["p"],
         FSFile.mk ["sub".toList, "x.csv".toList] ["q"]]).count
      (FSFile.mk ["sub".toList, "x.csv".toList] ["q"]) =
      ([FSFile.mk ["a.txt".toList] ["p"],
        FSFile.mk ["sub".toList, "x.csv".toList] ["q"]] : List FSFile).count
        (FSFile.mk ["sub".toList, "x.csv".toList] ["q"]) ∧
    FSFile.mk (rename_target_path ["a.txt".toList]) ["p"] ∈
      rename_txt_to_csv_script
        [FSFile.mk ["a.txt".toList] ["p"],
         FSFile.mk ["sub".toList, "x.csv".toList] ["q"]] ∧
    (FSFile.mk ["sub".toList, "x.csv".toList] ["q"] ∈
        ([FSFile.mk ["a.txt".toList] ["p"],
          FSFile.mk ["sub".toList, "x.csv".toList] ["q"]] : List FSFile) ∨
      ∃ f ∈ ([FSFile.mk ["a.txt".toList] ["p"],
          FSFile.mk ["sub".toList, "x.csv".toList] ["q"]] : List FSFile),
        isTopLevelTxt f.path = true ∧
        FSFile.mk ["sub".toList, "x.csv".toList] ["q"] =
          FSFile.mk (rename_target_path f.path) f.content) ∧
    ((add_header_sh
        [FSFile.mk ["a.txt".toList] ["p"],
         FSFile.mk ["sub".toList, "x.csv".toList] ["q"]]).get
      ⟨1, by decide⟩).content = gsed_prepend_header ["q"] := by
  refine ⟨?_, ?_, ?_, ?_⟩
  · exact (shell_scripts_frame _).1 _ (by decide)
  · exact (shell_scripts_frame
        [FSFile.mk ["a.txt".toList] ["p"],
         FSFile.mk ["sub".toList, "x.csv".toList] ["q"]]).2.1 (by decide)
      (FSFile.mk ["a.txt".toList] ["p"]) (by decide) (by decide)
  · exact (shell_scripts_frame _).2.2.1 _ (by decide)
  · exact (((shell_scripts_frame _).2.2.2.2 1 (by decide) (by decide)).2
      (by decide)).2

/-- Claim C9, as stated, is false on empty files: the `sed` substitution
`1s/^/.../` addresses line 1, and a zero-line file has no line 1, so
`add_header.sh` leaves an empty `.csv` file empty instead of turning its
content into the header line. -/
theorem add_header_sh_empty_csv_counterexample :
    add_header_sh [FSFile.mk ["e.csv".toList] []] =
      [FSFile.mk ["e.csv".toList] []] ∧
    gsed_prepend_header ([] : List String) ≠ [csvHeaderLine] :=
  ⟨by decide, by decide⟩

/-- Claim C9, amended: for every non-empty `.csv` file it processes,
`add_header.sh` turns the content into exactly the header line
`DateTime,Open,High,Low,Close,Volume` followed by the previous content
unchanged (empty files are left empty); and the rename script maps every
name ending in `.txt` to the same name with `.txt` replaced by `.csv`,
preserving the base name. -/
theorem add_header_content_and_rename_mapping :
    (∀ (lines : List String), lines ≠ [] →
      gsed_prepend_header lines = csvHeaderLine :: lines) ∧
    (∀ (fs : List FSFile) (i : ℕ) (hfi : i < fs.length)
      (hai : i < (add_header_sh fs).length),
      isCsvFind (fs[i]).path = true → (fs[i]).content ≠ [] →
      ((add_header_sh fs)[i]).content = csvHeaderLine :: (fs[i]).content) ∧
    (∀ name : List Char, endsWithSuffix txtSuffix name = true →
      rename_target name = (name.reverse.drop 4).reverse ++ csvSuffix ∧
      endsWithSuffix csvSuffix (rename_target name) = true ∧
      ((rename_target name).reverse.drop 4).reverse =
        (name.reverse.drop 4).reverse) := by
  refine ⟨gsed_prepend_header_of_ne_nil, ?_, ?_⟩
  · intro fs i hfi hai hcsv hne
    have : ((add_header_sh fs)[i]).content = gsed_prepend_header (fs[i]).content := by
      simp [add_header_sh, List.getElem_map, hcsv]
    rw [this, gsed_prepend_header_of_ne_nil _ hne]
  · intro name h
    have hrt : rename_target name = (name.reverse.drop 4).reverse ++ csvSuffix := by
      simp [rename_target, h]
    have h4 : (4 : ℕ) = csvSuffix.reverse.length := rfl
    refine ⟨hrt, ?_, ?_⟩
    · rw [hrt]
      simp only [endsWithSuffix, decide_eq_true_eq, List.reverse_append]
      have hlen : csvSuffix.length = csvSuffix.reverse.length :=
        (List.length_reverse _).symm
      rw [hlen, List.take_left]
    · rw [hrt, List.reverse_append, h4, List.drop_left, List.reverse_reverse]

/-- Witness for the amended C9: prepending to the one-line file `["q"]`, the
header behaviour of `add_header.sh` on a concrete `b.csv`, and the rename
mapping on the concrete name `a.txt`. -/
theorem add_header_content_and_rename_mapping_witness :
    gsed_prepend_header ["q"] = csvHeaderLine :: ["q"] ∧
    ((add_header_sh [FSFile.mk ["b.csv".toList] ["q"]]).get ⟨0, by decide⟩).content =
      csvHeaderLine :: ["q"] ∧
    rename_target "a.txt".toList =
      ("a.txt".toList.reverse.drop 4).reverse ++ csvSuffix ∧
    endsWithSuffix csvSuffix (rename_target "a.txt".toList) = true :=
  ⟨add_header_content_and_rename_mapping.1 ["q"] (by decide),
   add_header_content_and_rename_mapping.2.1
     [FSFile.mk ["b.csv".toList] ["q"]] 0 (by decide) (by decide)
     (by decide) (by decide),
   (add_header_content_and_rename_mapping.2.2 "a.txt".toList (by decide)).1,
   (add_header_content_and_rename_mapping.2.2 "a.txt".toList (by decide)).2.1⟩
